import Mathlib

/-!
# Verification of `random-winners.c`

A shallow embedding of the single C source file `src/random-winners.c`
(a command-line tool that picks N random winners from a line-per-name file)
together with proofs about its specification.

Modelling conventions:
* C strings / file contents are lists of bytes (`List Nat`); newline is 10,
  carriage return is 13, NUL is 0.
* `rand()` is modelled as an arbitrary sequence of non-negative draws
  `r : Nat → Nat` (`r i` is the value returned by the call made at loop
  index `i`).
* The in-place `char **` array is modelled as a `List (List Nat)`; the
  three-assignment swap of `shuffle` becomes two `List.set` operations.
-/

/-! ## The sampler: `shuffle` (src/random-winners.c lines 71-78) -/

/-- The C swap `temp = a[i]; a[i] = a[j]; a[j] = temp`.  Both indices are in
bounds whenever the code performs it (proved below); out-of-bounds indices are
modelled as a no-op. -/
def arrSwap {α : Type} (l : List α) (i j : Nat) : List α :=
  if h : i < l.length ∧ j < l.length then
    (l.set i (l.get ⟨j, h.2⟩)).set j (l.get ⟨i, h.1⟩)
  else l

/-- The loop `for (i = 0; i < n - 1; i++) { j = i + rand() % (n - i); swap }`.
`k` is the number of iterations still to run, `i` the current loop index and
`n` the array length passed to `shuffle`. -/
def shuffleGo {α : Type} (r : Nat → Nat) (n : Nat) : Nat → Nat → List α → List α
  | _, 0, l => l
  | i, k + 1, l => shuffleGo r n (i + 1) k (arrSwap l i (i + r i % (n - i)))

/-- `void shuffle(char **array, int n)`: the full Fisher-Yates pass the C code
performs, with `n = array length` as called from `main` (line 168). -/
def shuffle {α : Type} (r : Nat → Nat) (l : List α) : List α :=
  shuffleGo r l.length 0 (l.length - 1) l

/-- The spec-permitted early-stopping variant (spec section 4.2: "the routine
may stop early once the first N positions are finalized", i.e. it runs the
loop only for `i` from 0 to `N-1`, still subject to the `i < n - 1` guard). -/
def shuffleFirst {α : Type} (r : Nat → Nat) (N : Nat) (l : List α) : List α :=
  shuffleGo r l.length 0 (min N (l.length - 1)) l

/-! ### Permutation facts about `shuffle` -/

theorem get_cons_set_perm {α : Type} :
    ∀ (t : List α) (m : Nat) (hm : m < t.length) (x : α),
      List.Perm (t.get ⟨m, hm⟩ :: t.set m x) (x :: t) := by
  intro t
  induction t with
  | nil => intro m hm x; exact absurd hm (by simp)
  | cons b s ih =>
    intro m hm x
    cases m with
    | zero => simpa using List.Perm.swap x b s
    | succ k =>
      have hk : k < s.length := by simpa using hm
      exact ((List.Perm.swap b (s.get ⟨k, hk⟩) (s.set k x)).trans
        (List.Perm.cons b (ih k hk x))).trans (List.Perm.swap x b s)

theorem set_set_swap_perm {α : Type} :
    ∀ (l : List α) (i j : Nat) (hi : i < l.length) (hj : j < l.length),
      List.Perm ((l.set i (l.get ⟨j, hj⟩)).set j (l.get ⟨i, hi⟩)) l := by
  intro l
  induction l with
  | nil => intro i j hi _; exact absurd hi (by simp)
  | cons a t ih =>
    intro i j hi hj
    cases i with
    | zero =>
      cases j with
      | zero => simp
      | succ m =>
        have hm : m < t.length := by simpa using hj
        simpa using get_cons_set_perm t m hm a
    | succ n =>
      cases j with
      | zero =>
        have hn : n < t.length := by simpa using hi
        simpa using get_cons_set_perm t n hn a
      | succ m =>
        have hn : n < t.length := by simpa using hi
        have hm : m < t.length := by simpa using hj
        simpa using List.Perm.cons a (ih n m hn hm)

theorem arrSwap_perm {α : Type} (l : List α) (i j : Nat) :
    List.Perm (arrSwap l i j) l := by
  unfold arrSwap
  split
  · next h => exact set_set_swap_perm l i j h.1 h.2
  · exact List.Perm.refl l

theorem shuffleGo_perm {α : Type} (r : Nat → Nat) (n : Nat) :
    ∀ (k i : Nat) (l : List α), List.Perm (shuffleGo r n i k l) l := by
  intro k
  induction k with
  | zero => intro i l; exact List.Perm.refl l
  | succ k ih =>
    intro i l
    exact (ih (i + 1) (arrSwap l i (i + r i % (n - i)))).trans
      (arrSwap_perm l i (i + r i % (n - i)))

theorem shuffle_perm {α : Type} (r : Nat → Nat) (l : List α) :
    List.Perm (shuffle r l) l :=
  shuffleGo_perm r l.length (l.length - 1) 0 l

theorem shuffle_length {α : Type} (r : Nat → Nat) (l : List α) :
    (shuffle r l).length = l.length :=
  (shuffle_perm r l).length_eq

/-! ### Early-stopping equivalence infrastructure -/

theorem shuffleGo_append {α : Type} (r : Nat → Nat) (n : Nat) :
    ∀ (k₁ k₂ i : Nat) (l : List α),
      shuffleGo r n i (k₁ + k₂) l = shuffleGo r n (i + k₁) k₂ (shuffleGo r n i k₁ l) := by
  intro k₁
  induction k₁ with
  | zero => intro k₂ i l; simp [shuffleGo]
  | succ k ih =>
    intro k₂ i l
    have h1 : k + 1 + k₂ = (k + k₂) + 1 := by omega
    rw [h1]
    show shuffleGo r n (i + 1) (k + k₂) (arrSwap l i (i + r i % (n - i))) = _
    rw [ih k₂ (i + 1) (arrSwap l i (i + r i % (n - i)))]
    have h2 : i + 1 + k = i + (k + 1) := by omega
    rw [h2]
    rfl

theorem take_set_high {α : Type} :
    ∀ (l : List α) (N j : Nat) (x : α), N ≤ j → (l.set j x).take N = l.take N := by
  intro l
  induction l with
  | nil => intro N j x _; simp
  | cons a t ih =>
    intro N j x hNj
    cases N with
    | zero => simp
    | succ m =>
      cases j with
      | zero => omega
      | succ jj =>
        simp only [List.set_cons_succ, List.take_succ_cons]
        rw [ih m jj x (by omega)]

theorem arrSwap_take_high {α : Type} (l : List α) (N i j : Nat)
    (hNi : N ≤ i) (hij : i ≤ j) : (arrSwap l i j).take N = l.take N := by
  unfold arrSwap
  split
  · rw [take_set_high _ N j _ (le_trans hNi hij), take_set_high _ N i _ hNi]
  · rfl

theorem shuffleGo_take_high {α : Type} (r : Nat → Nat) (n N : Nat) :
    ∀ (k i : Nat) (l : List α), N ≤ i → (shuffleGo r n i k l).take N = l.take N := by
  intro k
  induction k with
  | zero => intro i l _; rfl
  | succ k ih =>
    intro i l hNi
    show (shuffleGo r n (i + 1) k (arrSwap l i (i + r i % (n - i)))).take N = l.take N
    rw [ih (i + 1) _ (by omega)]
    exact arrSwap_take_high l N i _ hNi (Nat.le_add_right i _)

/-! ## The line loader: `read_lines` (src/random-winners.c lines 16-68)

File contents are a byte list.  `fgets(buffer, 256, file)` reads at most 255
bytes, stopping after a newline (byte 10); it returns NULL exactly at end of
file.  The loop then computes `strlen` (modelled by truncating the chunk at
the first NUL byte), strips trailing newline / carriage-return bytes, skips
the line if it became empty, and otherwise stores a copy. -/

/-- The trailing-terminator strip loop (lines 34-38):
`while (len > 0 && (buffer[len-1] == '\n' || buffer[len-1] == '\r')) ...`,
i.e. removal of the maximal suffix of bytes 10 and 13
(see `stripTrail_append_single`). -/
def stripTrail : List Nat → List Nat
  | [] => []
  | c :: rest =>
    let r := stripTrail rest
    if r = [] ∧ (c = 10 ∨ c = 13) then [] else c :: r

/-- One `fgets(buffer, n+1, file)` call on remaining contents `cs`:
returns the chunk stored into the buffer and the remaining contents.
The first argument is the maximal number of bytes read (`n = 255` in the C
code, since `MAX_LINE_LENGTH = 256` counts the terminating NUL). -/
def fgetsTake : Nat → List Nat → List Nat × List Nat
  | _, [] => ([], [])
  | 0, cs => ([], cs)
  | n + 1, c :: cs =>
    if c = 10 then ([c], cs)
    else
      let p := fgetsTake n cs
      (c :: p.1, p.2)

/-- The buffer contents produced by the next `fgets` call. -/
def chunkOf (cs : List Nat) : List Nat := (fgetsTake 255 cs).1

/-- The file contents remaining after the next `fgets` call. -/
def restOf (cs : List Nat) : List Nat := (fgetsTake 255 cs).2

/-- The stored line produced from the next chunk: `strlen` truncates at the
first NUL, then trailing newline/carriage-return bytes are stripped. -/
def entryOf (cs : List Nat) : List Nat :=
  stripTrail ((chunkOf cs).takeWhile (fun c => c != 0))

/-- The `while (fgets(...))` loop.  Fuel is an upper bound on the number of
iterations; every iteration consumes at least one byte, so `cs.length`
suffices (see `read_lines`). -/
def readLinesGo : Nat → List Nat → List (List Nat)
  | 0, _ => []
  | _ + 1, [] => []
  | fuel + 1, c :: cs =>
    if entryOf (c :: cs) = [] then readLinesGo fuel (restOf (c :: cs))
    else entryOf (c :: cs) :: readLinesGo fuel (restOf (c :: cs))

/-- `int read_lines(const char *filename, char ***lines, int *count)`, success
path: the ordered list of stored lines for given file contents. -/
def read_lines (cs : List Nat) : List (List Nat) := readLinesGo cs.length cs

/-! ### The loader's specification, for the refinement claims

`loadLinesSpec` is written from the spec's words (section 4.1): "reads the
file line by line; strips trailing newline/carriage-return characters;
discards lines that become empty after stripping; preserves original order
and duplicates" — with a *line* being a maximal newline-free segment of the
file, regardless of length. -/

/-- Split file contents into newline-separated segments (the newline bytes
are not part of any segment).  Fuel-driven; `cs.length` suffices. -/
def splitSegsGo : Nat → List Nat → List (List Nat)
  | 0, _ => []
  | _ + 1, [] => []
  | fuel + 1, c :: cs =>
    if ((c :: cs).dropWhile (fun b => b != 10)) = [] then
      [(c :: cs).takeWhile (fun b => b != 10)]
    else
      (c :: cs).takeWhile (fun b => b != 10) ::
        splitSegsGo fuel (((c :: cs).dropWhile (fun b => b != 10)).tail)

/-- The lines of the file: maximal newline-free segments. -/
def splitSegs (cs : List Nat) : List (List Nat) := splitSegsGo cs.length cs

/-- The loader as the spec describes it: one entry per input line, with
trailing newline/carriage-return bytes stripped and empty results dropped. -/
def loadLinesSpec (cs : List Nat) : List (List Nat) :=
  ((splitSegs cs).map stripTrail).filter (fun s => !s.isEmpty)

/-! ## CLI glue: `atoi`, `main` (src/random-winners.c lines 99-181) -/

/-- C `atoi`: skip leading whitespace, optional sign, then a maximal digit
prefix; no digits gives 0.  (Overflow of the C `int` is undefined behaviour
and is modelled as unbounded.) -/
def atoiDigits : List Nat → Nat → Nat
  | [], acc => acc
  | c :: rest, acc =>
    if 48 ≤ c ∧ c ≤ 57 then atoiDigits rest (acc * 10 + (c - 48)) else acc

def atoi (s : List Nat) : Int :=
  match s.dropWhile (fun c => c == 32 || c == 9 || c == 10 || c == 11 || c == 12 || c == 13) with
  | 43 :: rest => (atoiDigits rest 0 : Int)
  | 45 :: rest => -(atoiDigits rest 0 : Int)
  | s1 => (atoiDigits s1 0 : Int)

/-- The process environment `main` observes: the arguments after `argv[0]`,
the file contents (`none` when `fopen` fails), and whether the memory
allocations succeed. -/
structure Env where
  argv : List (List Nat)
  file : Option (List Nat)
  allocOk : Bool

/-- One token per `fprintf(stderr, ...)` call in `main`. -/
inductive Msg where
  | invalidCount
  | fileOpen
  | allocFail
  | emptyList
  | insufficient
  | insufficientAdvice
  deriving DecidableEq

/-- The observable outcome of a run of `main`: the exit code, whether the
usage text was printed (stdout), whether the success header was printed
(stdout), the winner lines printed (stdout), and the stderr messages. -/
structure RunOut where
  exitCode : Nat
  usagePrinted : Bool
  headerPrinted : Bool
  winners : List (List Nat)
  stderr : List Msg
  deriving DecidableEq

/-- `main` after a successful `fopen` (lines 116-180): the allocation check,
the empty-list check (line 131), the insufficient-participants check
(line 138, which prints *two* stderr lines), then the shuffle and the winner
printout (`n` is the already-parsed winner count). -/
def mainLoaded (n : Int) (contents : List Nat) (allocOk : Bool) (r : Nat → Nat) : RunOut :=
  if allocOk = false then ⟨1, false, false, [], [Msg.allocFail]⟩
  else if read_lines contents = [] then ⟨1, false, false, [], [Msg.emptyList]⟩
  else if ((read_lines contents).length : Int) < n then
    ⟨1, false, false, [], [Msg.insufficient, Msg.insufficientAdvice]⟩
  else ⟨0, false, true, (shuffle r (read_lines contents)).take n.toNat, []⟩

/-- `main` after the usage check (lines 106-180): parse the winner count with
`atoi`, reject non-positive counts, open the file, then continue. -/
def mainChecked (numArg : List Nat) (file : Option (List Nat)) (allocOk : Bool)
    (r : Nat → Nat) : RunOut :=
  if atoi numArg ≤ 0 then ⟨1, false, false, [], [Msg.invalidCount]⟩
  else
    match file with
    | none => ⟨1, false, false, [], [Msg.fileOpen]⟩
    | some contents => mainLoaded (atoi numArg) contents allocOk r

/-- `int main(int argc, char *argv[])`.  `argc != 3` means `env.argv` is not
a two-element list, in which case the usage text is printed (line 102).  The
branch order follows the C code. -/
def runMain (env : Env) (r : Nat → Nat) : RunOut :=
  match env.argv with
  | [_, numArg] => mainChecked numArg env.file env.allocOk r
  | _ => ⟨1, true, false, [], []⟩

/-! ## Modulo bias of the swap-index draw (claim C2)

The code draws the swap index as `i + rand() % (n - i)`.  `rand()` returns a
value uniformly distributed on `[0, RAND_MAX]`; with glibc,
`RAND_MAX + 1 = 2^31`.  Since 3 does not divide `2^31`, the induced
distribution of `rand() % 3` — and hence of the first winner for a
three-entry participant list — is not uniform.  We count exactly. -/

/-- `RAND_MAX + 1` (glibc: `2^31`). -/
def randSpace : Nat := 2147483648

def alice : List Nat := [97, 108, 105, 99, 101]

def bob : List Nat := [98, 111, 98]

def carol : List Nat := [99, 97, 114, 111, 108]

/-- The spec's scenario list `["alice","bob","carol"]`. -/
def participants3 : List (List Nat) := [alice, bob, carol]

/-- A `rand()` implementation that keeps returning the same value `v`. -/
def constDraw (v : Nat) : Nat → Nat := fun _ => v

/-- Over all `RAND_MAX + 1` equally likely values of the first `rand()` call,
how many make `w` the first winner of the three-entry list. (The first array
slot is never touched again after loop iteration `i = 0`, so the first winner
depends only on the first draw.) -/
def firstWinnerTally (w : List Nat) : Nat :=
  ((Finset.range randSpace).filter
    (fun rv => (shuffle (constDraw rv) participants3).take 1 = [w])).card

theorem constDraw_apply (v i : Nat) : constDraw v i = v := rfl

theorem shuffle3_unfold (r : Nat → Nat) :
    shuffle r participants3 =
      arrSwap (arrSwap participants3 0 (0 + r 0 % 3)) 1 (1 + r 1 % 2) := rfl

theorem shuffle3_first_alice (rv : Nat) :
    ((shuffle (constDraw rv) participants3).take 1 = [alice]) ↔ rv % 3 = 0 := by
  rcases (by omega : rv % 3 = 0 ∨ rv % 3 = 1 ∨ rv % 3 = 2) with h3 | h3 | h3 <;>
    rcases (by omega : rv % 2 = 0 ∨ rv % 2 = 1) with h2 | h2 <;>
    · rw [shuffle3_unfold]
      simp only [constDraw_apply]
      rw [h3, h2]
      decide

theorem shuffle3_first_carol (rv : Nat) :
    ((shuffle (constDraw rv) participants3).take 1 = [carol]) ↔ rv % 3 = 2 := by
  rcases (by omega : rv % 3 = 0 ∨ rv % 3 = 1 ∨ rv % 3 = 2) with h3 | h3 | h3 <;>
    rcases (by omega : rv % 2 = 0 ∨ rv % 2 = 1) with h2 | h2 <;>
    · rw [shuffle3_unfold]
      simp only [constDraw_apply]
      rw [h3, h2]
      decide

theorem filter_mod3_range_step (m v : Nat) :
    ((Finset.range (m + 1)).filter (fun r => r % 3 = v)).card =
      ((Finset.range m).filter (fun r => r % 3 = v)).card +
        (if m % 3 = v then 1 else 0) := by
  rw [Finset.range_succ, Finset.filter_insert]
  by_cases h : m % 3 = v
  · rw [if_pos h, if_pos h, Finset.card_insert_of_not_mem]
    intro hmem
    have h2 := Finset.mem_filter.mp hmem
    have h3 := Finset.mem_range.mp h2.1
    omega
  · rw [if_neg h, if_neg h]
    rfl

theorem count_mod3 (v : Nat) (hv : v < 3) :
    ∀ q : Nat, ((Finset.range (3 * q)).filter (fun r => r % 3 = v)).card = q := by
  intro q
  induction q with
  | zero => simp
  | succ q ih =>
    rw [show 3 * (q + 1) = (3 * q + 1 + 1) + 1 from by ring, filter_mod3_range_step,
      show 3 * q + 1 + 1 = (3 * q + 1) + 1 from rfl, filter_mod3_range_step,
      show 3 * q + 1 = (3 * q) + 1 from rfl, filter_mod3_range_step, ih]
    have h0 : 3 * q % 3 = 0 := by omega
    have h1 : (3 * q + 1) % 3 = 1 := by omega
    have h2 : (3 * q + 1 + 1) % 3 = 2 := by omega
    rcases (by omega : v = 0 ∨ v = 1 ∨ v = 2) with rfl | rfl | rfl <;>
      simp [h0, h1, h2]

theorem count_mod3_randSpace :
    ((Finset.range randSpace).filter (fun r => r % 3 = 0)).card = 715827883 ∧
    ((Finset.range randSpace).filter (fun r => r % 3 = 2)).card = 715827882 := by
  have e : randSpace = (3 * 715827882 + 1) + 1 := by norm_num [randSpace]
  have h0 : (3 * 715827882) % 3 = 0 := by omega
  have h1 : (3 * 715827882 + 1) % 3 = 1 := by omega
  constructor
  · rw [e, filter_mod3_range_step, show 3 * 715827882 + 1 = (3 * 715827882) + 1 from rfl,
      filter_mod3_range_step, count_mod3 _ (by norm_num)]
    simp [h0, h1]
  · rw [e, filter_mod3_range_step, show 3 * 715827882 + 1 = (3 * 715827882) + 1 from rfl,
      filter_mod3_range_step, count_mod3 _ (by norm_num)]
    simp [h0, h1]

/-! ## Claims about the sampler -/

/-- C1: for every participant list and every winner count `1 ≤ N ≤ L`, and
every sequence of random draws, the array after `shuffle` is a permutation of
the array before it, so its first `N` elements are `N` pairwise-distinct
entries (by position of origin) drawn from the original list. -/
theorem shuffle_is_permutation (r : Nat → Nat) (l : List (List Nat)) (N : Nat)
    (h1 : 1 ≤ N) (h2 : N ≤ l.length) :
    List.Perm (shuffle r l) l ∧ ((shuffle r l).take N).length = N ∧
    List.Subperm ((shuffle r l).take N) l := by
  refine ⟨shuffle_perm r l, ?_, ?_⟩
  · rw [List.length_take, shuffle_length]; omega
  · exact ((List.take_sublist N (shuffle r l)).subperm).trans (shuffle_perm r l).subperm

theorem shuffle_is_permutation_witness :
    List.Perm (shuffle (constDraw 1) participants3) participants3 ∧
    ((shuffle (constDraw 1) participants3).take 2).length = 2 ∧
    List.Subperm ((shuffle (constDraw 1) participants3).take 2) participants3 :=
  shuffle_is_permutation (constDraw 1) participants3 2 (by decide) (by decide)

/-- C2 (counterexample): with `rand()` uniform on `[0, RAND_MAX]` and
`RAND_MAX + 1 = 2^31` (glibc), the draw `j = i + rand() % (L - i)` is *not*
uniform on `[i, L-1]`: for the spec's three-entry list, 715827883 of the
2^31 equally likely first draws make `alice` the first winner but only
715827882 make `carol` the first winner, so the resulting N-permutations are
not equally likely. -/
theorem shuffle_modulo_bias :
    firstWinnerTally alice = 715827883 ∧ firstWinnerTally carol = 715827882 ∧
    firstWinnerTally alice ≠ firstWinnerTally carol := by
  have ha : firstWinnerTally alice = 715827883 := by
    unfold firstWinnerTally
    rw [Finset.filter_congr (fun x _ => shuffle3_first_alice x)]
    exact count_mod3_randSpace.1
  have hc : firstWinnerTally carol = 715827882 := by
    unfold firstWinnerTally
    rw [Finset.filter_congr (fun x _ => shuffle3_first_carol x)]
    exact count_mod3_randSpace.2
  exact ⟨ha, hc, by omega⟩

/-- C2 (amended): for each index `i` from 0 to `L-2` the code draws
`j = i + rand() % (L - i)` — which always lies in `[i, L-1]` but is uniform
only when `L - i` divides `RAND_MAX + 1` (see `shuffle_modulo_bias`) — and
swaps elements `i` and `j`; the result is a permutation of the input, so the
first `N` elements are an N-permutation of the original `L` elements, though
not an exactly uniformly distributed one. -/
theorem shuffle_swap_step_in_range (r : Nat → Nat) (l : List (List Nat)) (i : Nat)
    (h : i < l.length - 1) :
    i ≤ i + r i % (l.length - i) ∧ i + r i % (l.length - i) ≤ l.length - 1 ∧
    shuffleGo r l.length i (l.length - 1 - i) l =
      shuffleGo r l.length (i + 1) (l.length - 1 - (i + 1))
        (arrSwap l i (i + r i % (l.length - i))) ∧
    List.Perm (shuffle r l) l := by
  refine ⟨Nat.le_add_right _ _, ?_, ?_, shuffle_perm r l⟩
  · have hm : r i % (l.length - i) < l.length - i := Nat.mod_lt _ (by omega)
    omega
  · have e : l.length - 1 - i = (l.length - 1 - (i + 1)) + 1 := by omega
    rw [e]
    rfl

theorem shuffle_swap_step_in_range_witness :
    0 ≤ 0 + constDraw 1 0 % (participants3.length - 0) ∧
    0 + constDraw 1 0 % (participants3.length - 0) ≤ participants3.length - 1 ∧
    shuffleGo (constDraw 1) participants3.length 0 (participants3.length - 1 - 0)
        participants3 =
      shuffleGo (constDraw 1) participants3.length (0 + 1)
        (participants3.length - 1 - (0 + 1))
        (arrSwap participants3 0 (0 + constDraw 1 0 % (participants3.length - 0))) ∧
    List.Perm (shuffle (constDraw 1) participants3) participants3 :=
  shuffle_swap_step_in_range (constDraw 1) participants3 0 (by decide)

/-- C6: stopping the loop once the first `N` positions are finalized yields
the same first `N` elements as the full shuffle, for the same draw sequence:
the shuffling of the remainder is unobservable through the first `N`
positions (which is all `main` ever reads, lines 172-174). -/
theorem shuffle_early_stop (r : Nat → Nat) (l : List (List Nat)) (N : Nat)
    (h1 : 1 ≤ N) (h2 : N ≤ l.length) :
    (shuffleFirst r N l).take N = (shuffle r l).take N := by
  unfold shuffleFirst shuffle
  by_cases hN : l.length - 1 ≤ N
  · rw [min_eq_right hN]
  · rw [min_eq_left (by omega)]
    rw [show l.length - 1 = N + (l.length - 1 - N) from by omega, shuffleGo_append]
    rw [shuffleGo_take_high r l.length N (l.length - 1 - N) (0 + N) _ (by omega)]

theorem shuffle_early_stop_witness :
    (shuffleFirst (constDraw 1) 1 participants3).take 1 =
      (shuffle (constDraw 1) participants3).take 1 :=
  shuffle_early_stop (constDraw 1) participants3 1 (by decide) (by decide)

/-- C9: `shuffle` never indexes out of bounds: whenever the loop body runs
(`i < n - 1`), the divisor `n - i` is positive and the swap index
`j = i + rand() % (n - i)` satisfies `i ≤ j ≤ n - 1`; and for arrays of
length at most 1 the loop body never runs, so the array is unchanged. -/
theorem shuffle_no_out_of_bounds (n i rv : Nat) (l : List (List Nat)) (r : Nat → Nat)
    (hi : i < n - 1) (hl : l.length ≤ 1) :
    0 < n - i ∧ i ≤ i + rv % (n - i) ∧ i + rv % (n - i) ≤ n - 1 ∧ shuffle r l = l := by
  have hpos : 0 < n - i := by omega
  have hmod : rv % (n - i) < n - i := Nat.mod_lt _ hpos
  refine ⟨hpos, Nat.le_add_right _ _, by omega, ?_⟩
  rcases l with _ | ⟨x, t⟩
  · rfl
  · rcases t with _ | ⟨y, t2⟩
    · rfl
    · simp at hl

theorem shuffle_no_out_of_bounds_witness :
    0 < 5 - 1 ∧ 1 ≤ 1 + 7 % (5 - 1) ∧ 1 + 7 % (5 - 1) ≤ 5 - 1 ∧
    shuffle (constDraw 0) [alice] = [alice] :=
  shuffle_no_out_of_bounds 5 1 7 [alice] (constDraw 0) (by decide) (by decide)

/-! ## Properties of the loader pieces -/

/-- `stripTrail` removes trailing terminators one at a time, exactly like the
C `while` loop at lines 35-38. -/
theorem stripTrail_append_single :
    ∀ (l : List Nat) (a : Nat),
      stripTrail (l ++ [a]) = if a = 10 ∨ a = 13 then stripTrail l else l ++ [a] := by
  intro l
  induction l with
  | nil =>
    intro a
    by_cases h : a = 10 ∨ a = 13 <;> simp [stripTrail, h]
  | cons c l ih =>
    intro a
    by_cases h : a = 10 ∨ a = 13
    · rw [if_pos h]
      show stripTrail (c :: (l ++ [a])) = stripTrail (c :: l)
      simp only [stripTrail, ih a, if_pos h]
    · rw [if_neg h]
      show stripTrail (c :: (l ++ [a])) = c :: l ++ [a]
      simp only [stripTrail, ih a, if_neg h]
      have hne : ¬(l ++ [a] = [] ∧ (c = 10 ∨ c = 13)) := by simp
      rw [if_neg hne]
      rfl

theorem mem_stripTrail : ∀ (s : List Nat) (x : Nat), x ∈ stripTrail s → x ∈ s := by
  intro s
  induction s with
  | nil => intro x hx; simpa [stripTrail] using hx
  | cons c rest ih =>
    intro x hx
    simp only [stripTrail] at hx
    by_cases h : stripTrail rest = [] ∧ (c = 10 ∨ c = 13)
    · rw [if_pos h] at hx; simp at hx
    · rw [if_neg h] at hx
      rcases List.mem_cons.mp hx with rfl | hx2
      · exact List.mem_cons_self x rest
      · exact List.mem_cons_of_mem c (ih x hx2)

theorem stripTrail_getLast :
    ∀ (s : List Nat) (c : Nat), (stripTrail s).getLast? = some c → c ≠ 10 ∧ c ≠ 13 := by
  intro s
  induction s with
  | nil => intro c hc; simp [stripTrail] at hc
  | cons a rest ih =>
    intro c hc
    simp only [stripTrail] at hc
    by_cases h : stripTrail rest = [] ∧ (a = 10 ∨ a = 13)
    · rw [if_pos h] at hc; simp at hc
    · rw [if_neg h] at hc
      rcases hr : stripTrail rest with _ | ⟨x, r2⟩
      · rw [hr] at hc h
        simp only [List.getLast?_singleton, Option.some.injEq] at hc
        subst hc
        constructor <;> · intro hcc; exact h ⟨rfl, by omega⟩
      · rw [hr] at hc
        rw [List.getLast?_cons_cons] at hc
        exact ih c (by rw [hr]; exact hc)

theorem fgetsTake_split :
    ∀ (n : Nat) (cs : List Nat), (fgetsTake n cs).1 ++ (fgetsTake n cs).2 = cs := by
  intro n
  induction n with
  | zero => intro cs; cases cs <;> rfl
  | succ n ih =>
    intro cs
    cases cs with
    | nil => rfl
    | cons c cs =>
      by_cases h : c = 10
      · simp [fgetsTake, h]
      · simp only [fgetsTake, if_neg h]
        simpa using ih cs

theorem fgetsTake_fst_ne (n : Nat) (cs : List Nat) (h : cs ≠ []) :
    (fgetsTake (n + 1) cs).1 ≠ [] := by
  cases cs with
  | nil => exact absurd rfl h
  | cons c cs =>
    by_cases hc : c = 10 <;> simp [fgetsTake, hc]

/-- Every iteration of the `fgets` loop consumes at least one byte. -/
theorem restOf_length (c : Nat) (cs : List Nat) :
    (restOf (c :: cs)).length < (c :: cs).length := by
  have hs := fgetsTake_split 255 (c :: cs)
  have hne := fgetsTake_fst_ne 254 (c :: cs) (by simp)
  have hlen := congrArg List.length hs
  rw [List.length_append] at hlen
  rcases he : (fgetsTake 255 (c :: cs)).1 with _ | ⟨x, t⟩
  · exact absurd he hne
  · rw [he] at hlen
    simp only [List.length_cons] at hlen
    show (fgetsTake 255 (c :: cs)).2.length < (c :: cs).length
    simp only [List.length_cons]
    omega

/-- An `fgets` chunk contains the newline byte at most as its final byte. -/
theorem fgetsTake_shape :
    ∀ (n : Nat) (cs : List Nat),
      10 ∉ (fgetsTake n cs).1 ∨
        ∃ seg, (fgetsTake n cs).1 = seg ++ [10] ∧ 10 ∉ seg := by
  intro n
  induction n with
  | zero => intro cs; cases cs <;> simp [fgetsTake]
  | succ n ih =>
    intro cs
    cases cs with
    | nil => simp [fgetsTake]
    | cons c cs =>
      by_cases h : c = 10
      · right
        exact ⟨[], by simp [fgetsTake, h], by simp⟩
      · rcases ih cs with h1 | ⟨seg, hseg, hmem⟩
        · left
          simp only [fgetsTake, if_neg h]
          simp only [List.mem_cons, not_or]
          exact ⟨fun he => h he.symm, h1⟩
        · right
          refine ⟨c :: seg, ?_, ?_⟩
          · simp only [fgetsTake, if_neg h, hseg]
            rfl
          · simp only [List.mem_cons, not_or]
            exact ⟨fun he => h he.symm, hmem⟩

/-- `fgets` on a short newline-free tail reads everything. -/
theorem fgetsTake_no_nl :
    ∀ (n : Nat) (cs : List Nat), 10 ∉ cs → cs.length ≤ n → fgetsTake n cs = (cs, []) := by
  intro n
  induction n with
  | zero =>
    intro cs hm hl
    cases cs with
    | nil => rfl
    | cons c cs => simp at hl
  | succ n ih =>
    intro cs hm hl
    cases cs with
    | nil => rfl
    | cons c cs =>
      have hc : c ≠ 10 := fun he => hm (he ▸ List.mem_cons_self c cs)
      simp only [fgetsTake, if_neg hc]
      rw [ih cs (fun hx => hm (List.mem_cons_of_mem c hx)) (by simpa using hl)]

/-- `fgets` on a line that fits in the buffer reads it, newline included. -/
theorem fgetsTake_seg_nl :
    ∀ (seg : List Nat) (n : Nat) (rest : List Nat), 10 ∉ seg → seg.length < n →
      fgetsTake n (seg ++ 10 :: rest) = (seg ++ [10], rest) := by
  intro seg
  induction seg with
  | nil =>
    intro n rest _ hl
    cases n with
    | zero => omega
    | succ n => simp [fgetsTake]
  | cons s seg ih =>
    intro n rest hm hl
    cases n with
    | zero => simp at hl
    | succ n =>
      have hs : s ≠ 10 := fun he => hm (he ▸ List.mem_cons_self s seg)
      show fgetsTake (n + 1) (s :: (seg ++ 10 :: rest)) = (s :: (seg ++ [10]), rest)
      simp only [fgetsTake, if_neg hs]
      rw [ih n rest (fun hx => hm (List.mem_cons_of_mem s hx)) (by simpa using hl)]

/-- `fgets` on a newline-free segment that exactly fills the buffer stops
after it, leaving the rest (newline included) unread. -/
theorem fgetsTake_full :
    ∀ (seg : List Nat) (n : Nat) (rest2 : List Nat), 10 ∉ seg → seg.length = n →
      fgetsTake n (seg ++ rest2) = (seg, rest2) := by
  intro seg
  induction seg with
  | nil =>
    intro n rest2 _ hl
    have : n = 0 := by simpa using hl.symm
    subst this
    cases rest2 <;> rfl
  | cons s seg ih =>
    intro n rest2 hm hl
    cases n with
    | zero => simp at hl
    | succ n =>
      have hs : s ≠ 10 := fun he => hm (he ▸ List.mem_cons_self s seg)
      show fgetsTake (n + 1) (s :: (seg ++ rest2)) = (s :: seg, rest2)
      simp only [fgetsTake, if_neg hs]
      rw [ih n rest2 (fun hx => hm (List.mem_cons_of_mem s hx)) (by simpa using hl)]

theorem takeWhile_eq_self_of_all :
    ∀ (p : Nat → Bool) (l : List Nat), (∀ x ∈ l, p x = true) → l.takeWhile p = l := by
  intro p l
  induction l with
  | nil => intro _; rfl
  | cons c l ih =>
    intro h
    rw [List.takeWhile_cons p c l, if_pos (h c (List.mem_cons_self c l))]
    rw [ih (fun x hx => h x (List.mem_cons_of_mem c hx))]

theorem dropWhile_head_eq :
    ∀ (p : Nat → Bool) (l : List Nat) (d : Nat) (rest : List Nat),
      l.dropWhile p = d :: rest → p d = false := by
  intro p l
  induction l with
  | nil => intro d rest h; simp [List.dropWhile] at h
  | cons c l ih =>
    intro d rest h
    rw [List.dropWhile_cons] at h
    by_cases hc : p c
    · rw [if_pos hc] at h; exact ih d rest h
    · rw [if_neg hc] at h
      have : c = d := (List.cons.injEq c l d rest ▸ h).1
      subst this
      simpa using hc

theorem length_dropWhile_le :
    ∀ (p : Nat → Bool) (l : List Nat), (l.dropWhile p).length ≤ l.length := by
  intro p l
  induction l with
  | nil => simp
  | cons c l ih =>
    rw [List.dropWhile_cons]
    by_cases hc : p c
    · rw [if_pos hc]; simp only [List.length_cons]; omega
    · rw [if_neg hc]

/-- `takeWhile` at the NUL predicate keeps the chunk shape "newline only at
the end" intact (it can only cut the chunk before the newline). -/
theorem takeWhile_nul_shape :
    ∀ (seg : List Nat), 10 ∉ seg →
      (seg ++ [10]).takeWhile (fun c => c != 0) = seg.takeWhile (fun c => c != 0) ∨
      (seg ++ [10]).takeWhile (fun c => c != 0) = seg ++ [10] := by
  intro seg
  induction seg with
  | nil => intro _; right; rfl
  | cons s seg ih =>
    intro hm
    by_cases hs : s = 0
    · left
      subst hs
      rw [show (0 :: seg) ++ [10] = 0 :: (seg ++ [10]) from rfl]
      rw [List.takeWhile_cons, List.takeWhile_cons]
      simp
    · have hsb : (s != 0) = true := by simpa using hs
      rw [show (s :: seg) ++ [10] = s :: (seg ++ [10]) from rfl]
      rw [List.takeWhile_cons, if_pos hsb, List.takeWhile_cons, if_pos hsb]
      rcases ih (fun hx => hm (List.mem_cons_of_mem s hx)) with h | h
      · left; rw [h]
      · right; rw [h]

/-! ### Fuel irrelevance for the loops -/

theorem readLinesGo_nil : ∀ f, readLinesGo f [] = [] := by
  intro f; cases f <;> rfl

theorem readLinesGo_cons (fuel c : Nat) (cs : List Nat) :
    readLinesGo (fuel + 1) (c :: cs) =
      if entryOf (c :: cs) = [] then readLinesGo fuel (restOf (c :: cs))
      else entryOf (c :: cs) :: readLinesGo fuel (restOf (c :: cs)) := rfl

theorem readLinesGo_congr :
    ∀ (k : Nat) (cs : List Nat) (f₁ f₂ : Nat), cs.length ≤ k → cs.length ≤ f₁ →
      cs.length ≤ f₂ → readLinesGo f₁ cs = readLinesGo f₂ cs := by
  intro k
  induction k with
  | zero =>
    intro cs f₁ f₂ hk _ _
    have : cs = [] := List.eq_nil_of_length_eq_zero (by omega)
    subst this
    rw [readLinesGo_nil, readLinesGo_nil]
  | succ k ih =>
    intro cs f₁ f₂ hk h1 h2
    cases cs with
    | nil => rw [readLinesGo_nil, readLinesGo_nil]
    | cons c cs =>
      cases f₁ with
      | zero => simp at h1
      | succ f₁ =>
        cases f₂ with
        | zero => simp at h2
        | succ f₂ =>
          rw [readLinesGo_cons, readLinesGo_cons]
          have hr := restOf_length c cs
          simp only [List.length_cons] at hk h1 h2 hr
          rw [ih (restOf (c :: cs)) f₁ f₂ (by omega) (by omega) (by omega)]

theorem splitSegsGo_nil : ∀ f, splitSegsGo f [] = [] := by
  intro f; cases f <;> rfl

theorem splitSegsGo_cons (fuel c : Nat) (cs : List Nat) :
    splitSegsGo (fuel + 1) (c :: cs) =
      if ((c :: cs).dropWhile (fun b => b != 10)) = [] then
        [(c :: cs).takeWhile (fun b => b != 10)]
      else
        (c :: cs).takeWhile (fun b => b != 10) ::
          splitSegsGo fuel (((c :: cs).dropWhile (fun b => b != 10)).tail) := rfl

theorem splitSegsGo_congr :
    ∀ (k : Nat) (cs : List Nat) (f₁ f₂ : Nat), cs.length ≤ k → cs.length ≤ f₁ →
      cs.length ≤ f₂ → splitSegsGo f₁ cs = splitSegsGo f₂ cs := by
  intro k
  induction k with
  | zero =>
    intro cs f₁ f₂ hk _ _
    have : cs = [] := List.eq_nil_of_length_eq_zero (by omega)
    subst this
    rw [splitSegsGo_nil, splitSegsGo_nil]
  | succ k ih =>
    intro cs f₁ f₂ hk h1 h2
    cases cs with
    | nil => rw [splitSegsGo_nil, splitSegsGo_nil]
    | cons c cs =>
      cases f₁ with
      | zero => simp at h1
      | succ f₁ =>
        cases f₂ with
        | zero => simp at h2
        | succ f₂ =>
          rw [splitSegsGo_cons, splitSegsGo_cons]
          have hdl := length_dropWhile_le (fun b => b != 10) (c :: cs)
          have htl := List.length_tail ((c :: cs).dropWhile (fun b => b != 10))
          simp only [List.length_cons] at hk h1 h2 hdl
          rw [ih (((c :: cs).dropWhile (fun b => b != 10)).tail) f₁ f₂ (by omega) (by omega)
            (by omega)]

/-! ### `read_lines` agrees with the spec's loader on NUL-free files whose
lines fit the `fgets` buffer -/

theorem readLines_eq_spec_aux :
    ∀ (k : Nat) (cs : List Nat), cs.length ≤ k → 0 ∉ cs →
      (∀ seg ∈ splitSegs cs, seg.length ≤ 255) → read_lines cs = loadLinesSpec cs := by
  intro k
  induction k with
  | zero =>
    intro cs hk _ _
    have hnil : cs = [] := List.eq_nil_of_length_eq_zero (by omega)
    subst hnil
    rfl
  | succ k ih =>
    intro cs hk h0 hseg
    cases cs with
    | nil => rfl
    | cons c cs' =>
      have hsplit0 : splitSegs (c :: cs') = splitSegsGo (cs'.length + 1) (c :: cs') := rfl
      by_cases hd : (c :: cs').dropWhile (fun b => b != 10) = []
      · -- no newline in the file: one chunk, one segment
        have seg_eq : (c :: cs').takeWhile (fun b => b != 10) = c :: cs' := by
          have hsum := List.takeWhile_append_dropWhile (fun b => b != 10) (c :: cs')
          rw [hd, List.append_nil] at hsum
          exact hsum
        have h10 : 10 ∉ c :: cs' := by
          intro hx
          have hx2 : 10 ∈ (c :: cs').takeWhile (fun b => b != 10) := by rw [seg_eq]; exact hx
          have := List.mem_takeWhile_imp hx2
          simp at this
        have hsplitB : splitSegs (c :: cs') = [c :: cs'] := by
          rw [hsplit0, splitSegsGo_cons, if_pos hd, seg_eq]
        have h255 : (c :: cs').length ≤ 255 := by
          have := hseg (c :: cs') (by rw [hsplitB]; exact List.mem_cons_self _ _)
          exact this
        have hf : fgetsTake 255 (c :: cs') = (c :: cs', []) :=
          fgetsTake_no_nl 255 (c :: cs') h10 h255
        have hall : ∀ x ∈ c :: cs', (x != 0) = true := by
          intro x hx
          have : x ≠ 0 := fun he => h0 (he ▸ hx)
          simpa using this
        have hent : entryOf (c :: cs') = stripTrail (c :: cs') := by
          unfold entryOf chunkOf
          rw [hf]
          show stripTrail ((c :: cs').takeWhile (fun c => c != 0)) = stripTrail (c :: cs')
          rw [takeWhile_eq_self_of_all _ _ hall]
        have hrest : restOf (c :: cs') = [] := by unfold restOf; rw [hf]
        show readLinesGo (cs'.length + 1) (c :: cs') = loadLinesSpec (c :: cs')
        rw [readLinesGo_cons, hent, hrest, readLinesGo_nil]
        unfold loadLinesSpec
        rw [hsplitB, List.map_cons, List.map_nil, List.filter_cons]
        by_cases he : stripTrail (c :: cs') = []
        · rw [if_pos he, he]
          simp
        · rw [if_neg he]
          have hcond : (!(stripTrail (c :: cs')).isEmpty) = true := by
            simp [List.isEmpty_iff, he]
          rw [hcond]
          simp
      · -- the file has a newline: first segment, then the tail
        rcases hdrpE : (c :: cs').dropWhile (fun b => b != 10) with _ | ⟨d, rest⟩
        · exact absurd hdrpE hd
        obtain ⟨seg, hsegdef⟩ :
            ∃ s, (c :: cs').takeWhile (fun b => b != 10) = s := ⟨_, rfl⟩
        have hd10 : d = 10 := by
          have := dropWhile_head_eq (fun b => b != 10) (c :: cs') d rest hdrpE
          simpa using this
        subst hd10
        have hdecomp : c :: cs' = seg ++ 10 :: rest := by
          have hsum := List.takeWhile_append_dropWhile (fun b => b != 10) (c :: cs')
          rw [hdrpE, hsegdef] at hsum
          exact hsum.symm
        have hsegne : 10 ∉ seg := by
          intro hx
          have hx2 : 10 ∈ (c :: cs').takeWhile (fun b => b != 10) := by
            rw [hsegdef]; exact hx
          have := List.mem_takeWhile_imp hx2
          simp at this
        have hlens : cs'.length + 1 = seg.length + (rest.length + 1) := by
          have := congrArg List.length hdecomp
          simpa [List.length_append] using this
        have hk2 : cs'.length + 1 ≤ k + 1 := by simpa using hk
        have hsplitA : splitSegs (c :: cs') = seg :: splitSegs rest := by
          rw [hsplit0, splitSegsGo_cons, if_neg hd, hdrpE, hsegdef]
          simp only [List.tail_cons]
          have hcg : splitSegsGo cs'.length rest = splitSegs rest :=
            splitSegsGo_congr cs'.length rest cs'.length rest.length (by omega) (by omega)
              (le_refl _)
          rw [hcg]
        have hseg255 : seg.length ≤ 255 :=
          hseg seg (by rw [hsplitA]; exact List.mem_cons_self _ _)
        have hseg0 : 0 ∉ seg := by
          intro hx
          exact h0 (by rw [hdecomp]; exact List.mem_append.mpr (Or.inl hx))
        have hrest0 : 0 ∉ rest := by
          intro hx
          apply h0
          rw [hdecomp]
          exact List.mem_append.mpr (Or.inr (List.mem_cons_of_mem 10 hx))
        have hrestseg : ∀ s2 ∈ splitSegs rest, s2.length ≤ 255 := by
          intro s2 hs2
          exact hseg s2 (by rw [hsplitA]; exact List.mem_cons_of_mem seg hs2)
        have ihrest : read_lines rest = loadLinesSpec rest :=
          ih rest (by omega) hrest0 hrestseg
        have hsegall : ∀ x ∈ seg, (x != 0) = true := by
          intro x hx
          have : x ≠ 0 := fun he => hseg0 (he ▸ hx)
          simpa using this
        have hspec : loadLinesSpec (c :: cs') =
            if stripTrail seg = [] then loadLinesSpec rest
            else stripTrail seg :: loadLinesSpec rest := by
          by_cases he : stripTrail seg = []
          · rw [if_pos he]
            unfold loadLinesSpec
            rw [hsplitA, List.map_cons, List.filter_cons, he]
            simp
          · rw [if_neg he]
            unfold loadLinesSpec
            rw [hsplitA, List.map_cons, List.filter_cons]
            have hcond : (!(stripTrail seg).isEmpty) = true := by
              simp [List.isEmpty_iff, he]
            rw [hcond]
            simp
        by_cases hlen : seg.length ≤ 254
        · -- the whole line fits in one fgets chunk, newline included
          have hf : fgetsTake 255 (c :: cs') = (seg ++ [10], rest) := by
            rw [hdecomp]
            exact fgetsTake_seg_nl seg 255 rest hsegne (by omega)
          have hent : entryOf (c :: cs') = stripTrail seg := by
            unfold entryOf chunkOf
            rw [hf]
            show stripTrail ((seg ++ [10]).takeWhile (fun c => c != 0)) = stripTrail seg
            have hall2 : ∀ x ∈ seg ++ [10], (x != 0) = true := by
              intro x hx
              rcases List.mem_append.mp hx with h1 | h1
              · exact hsegall x h1
              · have : x = 10 := by simpa using h1
                subst this
                rfl
            rw [takeWhile_eq_self_of_all _ _ hall2]
            rw [stripTrail_append_single seg 10, if_pos (Or.inl rfl)]
          have hrestA : restOf (c :: cs') = rest := by unfold restOf; rw [hf]
          show readLinesGo (cs'.length + 1) (c :: cs') = loadLinesSpec (c :: cs')
          rw [readLinesGo_cons, hent, hrestA]
          have hrw : readLinesGo cs'.length rest = read_lines rest :=
            readLinesGo_congr cs'.length rest cs'.length rest.length (by omega) (by omega)
              (le_refl _)
          rw [hrw, ihrest, hspec]
        · -- the segment exactly fills the buffer; the newline is read alone
          have hlen255 : seg.length = 255 := by omega
          have hf : fgetsTake 255 (c :: cs') = (seg, 10 :: rest) := by
            rw [hdecomp]
            exact fgetsTake_full seg 255 (10 :: rest) hsegne hlen255
          have hent : entryOf (c :: cs') = stripTrail seg := by
            unfold entryOf chunkOf
            rw [hf]
            show stripTrail (seg.takeWhile (fun c => c != 0)) = stripTrail seg
            rw [takeWhile_eq_self_of_all _ _ hsegall]
          have hrestA : restOf (c :: cs') = 10 :: rest := by unfold restOf; rw [hf]
          have hstep : readLinesGo cs'.length (10 :: rest) = read_lines rest := by
            have hcl : cs'.length = (cs'.length - 1) + 1 := by omega
            rw [hcl, readLinesGo_cons]
            have hent2 : entryOf (10 :: rest) = [] := rfl
            have hrest2 : restOf (10 :: rest) = rest := rfl
            rw [hent2, hrest2, if_pos rfl]
            exact readLinesGo_congr cs'.length rest (cs'.length - 1) rest.length (by omega)
              (by omega) (le_refl _)
          show readLinesGo (cs'.length + 1) (c :: cs') = loadLinesSpec (c :: cs')
          rw [readLinesGo_cons, hent, hrestA, hstep, ihrest, hspec]

/-! ### Shape of the stored entries -/

theorem entryOf_no_nl (cs : List Nat) : 10 ∉ entryOf cs := by
  unfold entryOf
  rcases fgetsTake_shape 255 cs with h | ⟨seg, hseg, hmem⟩
  · intro hx
    have hx2 := mem_stripTrail _ _ hx
    have hx3 : (10 : Nat) ∈ chunkOf cs :=
      (List.takeWhile_sublist (fun c => c != 0)).subset hx2
    exact h hx3
  · show 10 ∉ stripTrail ((chunkOf cs).takeWhile (fun c => c != 0))
    rw [show chunkOf cs = (fgetsTake 255 cs).1 from rfl, hseg]
    rcases takeWhile_nul_shape seg hmem with h2 | h2
    · rw [h2]
      intro hx
      have hx2 := mem_stripTrail _ _ hx
      have hx3 : (10 : Nat) ∈ seg :=
        (List.takeWhile_sublist (fun c => c != 0)).subset hx2
      exact hmem hx3
    · rw [h2, stripTrail_append_single seg 10, if_pos (Or.inl rfl)]
      intro hx
      exact hmem (mem_stripTrail _ _ hx)

theorem readLinesGo_entries :
    ∀ (fuel : Nat) (cs e : List Nat), e ∈ readLinesGo fuel cs →
      e ≠ [] ∧ ∃ cs2, e = entryOf cs2 := by
  intro fuel
  induction fuel with
  | zero => intro cs e he; simp [readLinesGo] at he
  | succ fuel ih =>
    intro cs e he
    cases cs with
    | nil => rw [readLinesGo_nil] at he; simp at he
    | cons c cs' =>
      rw [readLinesGo_cons] at he
      by_cases hent : entryOf (c :: cs') = []
      · rw [if_pos hent] at he
        exact ih _ e he
      · rw [if_neg hent] at he
        rcases List.mem_cons.mp he with rfl | he2
        · exact ⟨hent, ⟨c :: cs', rfl⟩⟩
        · exact ih _ e he2

/-! ## Claims about the loader -/

/-- The spec's blank-line scenario file `"alice\n\nbob\n"`. -/
def aliceBobFile : List Nat := [97, 108, 105, 99, 101, 10, 10, 98, 111, 98, 10]

/-- A file consisting of one 256-byte line: longer than the `fgets` buffer. -/
def longLineFile : List Nat := List.replicate 256 97 ++ [10]

set_option maxRecDepth 4000 in
/-- C3 (counterexample): the loader does *not* return one entry per non-empty
input line regardless of line length.  A single 256-byte line is split by the
255-byte `fgets` reads into two stored entries, and a NUL byte inside a line
truncates the stored entry at the NUL. -/
theorem read_lines_long_line_split :
    read_lines longLineFile = [List.replicate 255 97, [97]] ∧
    loadLinesSpec longLineFile = [List.replicate 256 97] ∧
    read_lines longLineFile ≠ loadLinesSpec longLineFile ∧
    read_lines [97, 0, 98, 10] = [[97]] ∧
    loadLinesSpec [97, 0, 98, 10] = [[97, 0, 98]] := by decide

/-- C3 (amended): for every input file that contains no NUL byte and whose
every line is at most 255 bytes long, the loader returns exactly the file's
lines in original order, duplicates preserved, trailing newline/carriage-
return bytes stripped, and lines that become empty after stripping
discarded — one output entry per non-empty input line. -/
theorem read_lines_matches_spec_short_lines (cs : List Nat) (h0 : 0 ∉ cs)
    (hseg : ∀ seg ∈ splitSegs cs, seg.length ≤ 255) :
    read_lines cs = loadLinesSpec cs :=
  readLines_eq_spec_aux cs.length cs (le_refl _) h0 hseg

theorem read_lines_matches_spec_short_lines_witness :
    read_lines aliceBobFile = loadLinesSpec aliceBobFile :=
  read_lines_matches_spec_short_lines aliceBobFile (by decide) (by decide)

/-- C5 (counterexample): a carriage-return byte in the *middle* of a line is
not removed — only trailing ones are — so an entry can contain a carriage
return. -/
theorem read_lines_interior_cr :
    read_lines [97, 13, 98, 10] = [[97, 13, 98]] ∧ (13 : Nat) ∈ [97, 13, 98] := by
  decide

/-- C5 (amended): every entry produced by the loader is non-empty, contains
no newline byte anywhere, and does not *end* with a newline or carriage
return (interior carriage returns can survive, see `read_lines_interior_cr`). -/
theorem read_lines_entries_invariant (cs e : List Nat) (he : e ∈ read_lines cs) :
    e ≠ [] ∧ 10 ∉ e ∧ e.getLast? ≠ some 10 ∧ e.getLast? ≠ some 13 := by
  obtain ⟨hne, cs2, hent⟩ := readLinesGo_entries cs.length cs e he
  subst hent
  refine ⟨hne, entryOf_no_nl cs2, ?_, ?_⟩
  · intro hl
    exact (stripTrail_getLast _ _ hl).1 rfl
  · intro hl
    exact (stripTrail_getLast _ _ hl).2 rfl

theorem read_lines_entries_invariant_witness :
    alice ≠ [] ∧ 10 ∉ alice ∧ alice.getLast? ≠ some 10 ∧ alice.getLast? ≠ some 13 :=
  read_lines_entries_invariant aliceBobFile alice (by decide)

/-- C8: loading is deterministic in the file contents — the loader is a pure
function of the byte list it reads, so two runs on equal contents give equal
ordered participant sequences. -/
theorem read_lines_deterministic (cs₁ cs₂ : List Nat) (h : cs₁ = cs₂) :
    read_lines cs₁ = read_lines cs₂ := by rw [h]

theorem read_lines_deterministic_witness :
    read_lines aliceBobFile = read_lines aliceBobFile :=
  read_lines_deterministic aliceBobFile aliceBobFile rfl

/-! ### Branch lemmas for `main` -/

theorem runMain_usage (env : Env) (r : Nat → Nat) (h : env.argv.length ≠ 2) :
    runMain env r = ⟨1, true, false, [], []⟩ := by
  unfold runMain
  rcases hargv : env.argv with _ | ⟨x, _ | ⟨y, _ | ⟨z, t⟩⟩⟩
  · rfl
  · rfl
  · rw [hargv] at h; exact absurd rfl h
  · rfl

theorem runMain_checked (env : Env) (r : Nat → Nat) (fn a : List Nat)
    (h : env.argv = [fn, a]) :
    runMain env r = mainChecked a env.file env.allocOk r := by
  unfold runMain
  rw [h]

theorem mainChecked_invalid (a : List Nat) (file : Option (List Nat)) (alloc : Bool)
    (r : Nat → Nat) (h : atoi a ≤ 0) :
    mainChecked a file alloc r = ⟨1, false, false, [], [Msg.invalidCount]⟩ := by
  unfold mainChecked
  rw [if_pos h]

theorem mainChecked_none (a : List Nat) (alloc : Bool) (r : Nat → Nat) (h : 0 < atoi a) :
    mainChecked a none alloc r = ⟨1, false, false, [], [Msg.fileOpen]⟩ := by
  unfold mainChecked
  rw [if_neg (by omega)]

theorem mainChecked_some (a c : List Nat) (alloc : Bool) (r : Nat → Nat) (h : 0 < atoi a) :
    mainChecked a (some c) alloc r = mainLoaded (atoi a) c alloc r := by
  unfold mainChecked
  rw [if_neg (by omega)]

theorem mainLoaded_alloc (n : Int) (c : List Nat) (r : Nat → Nat) :
    mainLoaded n c false r = ⟨1, false, false, [], [Msg.allocFail]⟩ := rfl

theorem mainLoaded_empty (n : Int) (c : List Nat) (r : Nat → Nat)
    (he : read_lines c = []) :
    mainLoaded n c true r = ⟨1, false, false, [], [Msg.emptyList]⟩ := by
  unfold mainLoaded
  rw [if_neg (by simp), if_pos he]

theorem mainLoaded_insufficient (n : Int) (c : List Nat) (r : Nat → Nat)
    (hne : read_lines c ≠ []) (hlt : ((read_lines c).length : Int) < n) :
    mainLoaded n c true r =
      ⟨1, false, false, [], [Msg.insufficient, Msg.insufficientAdvice]⟩ := by
  unfold mainLoaded
  rw [if_neg (by simp), if_neg hne, if_pos hlt]

theorem mainLoaded_success (n : Int) (c : List Nat) (r : Nat → Nat)
    (hne : read_lines c ≠ []) (hge : ¬ ((read_lines c).length : Int) < n) :
    mainLoaded n c true r =
      ⟨0, false, true, (shuffle r (read_lines c)).take n.toNat, []⟩ := by
  unfold mainLoaded
  rw [if_neg (by simp), if_neg hne, if_neg hge]

/-- Every run of `main` ends in exactly one of the seven observable shapes. -/
theorem runMain_shape (env : Env) (r : Nat → Nat) :
    runMain env r = ⟨1, true, false, [], []⟩ ∨
    runMain env r = ⟨1, false, false, [], [Msg.invalidCount]⟩ ∨
    runMain env r = ⟨1, false, false, [], [Msg.fileOpen]⟩ ∨
    runMain env r = ⟨1, false, false, [], [Msg.allocFail]⟩ ∨
    runMain env r = ⟨1, false, false, [], [Msg.emptyList]⟩ ∨
    runMain env r = ⟨1, false, false, [], [Msg.insufficient, Msg.insufficientAdvice]⟩ ∨
    ∃ n c, 0 < n ∧ read_lines c ≠ [] ∧ ¬ ((read_lines c).length : Int) < n ∧
      runMain env r = ⟨0, false, true, (shuffle r (read_lines c)).take n.toNat, []⟩ := by
  by_cases h2 : env.argv.length = 2
  · obtain ⟨fn, a, hargv⟩ := List.length_eq_two.mp h2
    rw [runMain_checked env r fn a hargv]
    by_cases hn : atoi a ≤ 0
    · exact Or.inr (Or.inl (mainChecked_invalid a env.file env.allocOk r hn))
    · have hn' : 0 < atoi a := by omega
      rcases hfile : env.file with _ | c
      · exact Or.inr (Or.inr (Or.inl (mainChecked_none a env.allocOk r hn')))
      · rw [mainChecked_some a c env.allocOk r hn']
        rcases halloc : env.allocOk with _ | _
        · exact Or.inr (Or.inr (Or.inr (Or.inl (mainLoaded_alloc (atoi a) c r))))
        · by_cases hempty : read_lines c = []
          · exact Or.inr (Or.inr (Or.inr (Or.inr (Or.inl
              (mainLoaded_empty (atoi a) c r hempty)))))
          · by_cases hlt : ((read_lines c).length : Int) < atoi a
            · exact Or.inr (Or.inr (Or.inr (Or.inr (Or.inr (Or.inl
                (mainLoaded_insufficient (atoi a) c r hempty hlt))))))
            · exact Or.inr (Or.inr (Or.inr (Or.inr (Or.inr (Or.inr
                ⟨atoi a, c, hn', hempty, hlt,
                  mainLoaded_success (atoi a) c r hempty hlt⟩)))))
  · exact Or.inl (runMain_usage env r h2)

/-! ## Claims about the CLI glue -/

/-- C4: the process exits 0 exactly on success (header and winner lines
printed to stdout), and exits 1 in each listed error case: wrong argument
count (usage printed), non-positive winner count, unreadable file, allocation
failure, zero usable lines, winners exceeding participants. -/
theorem main_exit_code_spec (env : Env) (r : Nat → Nat) :
    ((runMain env r).exitCode = 0 ∨ (runMain env r).exitCode = 1) ∧
    ((runMain env r).exitCode = 0 ↔
      (runMain env r).headerPrinted = true ∧ (runMain env r).winners ≠ []) ∧
    (env.argv.length ≠ 2 → runMain env r = ⟨1, true, false, [], []⟩) ∧
    (∀ fn a, env.argv = [fn, a] → atoi a ≤ 0 →
      runMain env r = ⟨1, false, false, [], [Msg.invalidCount]⟩) ∧
    (∀ fn a, env.argv = [fn, a] → 0 < atoi a → env.file = none →
      runMain env r = ⟨1, false, false, [], [Msg.fileOpen]⟩) ∧
    (∀ fn a c, env.argv = [fn, a] → 0 < atoi a → env.file = some c →
      env.allocOk = false → runMain env r = ⟨1, false, false, [], [Msg.allocFail]⟩) ∧
    (∀ fn a c, env.argv = [fn, a] → 0 < atoi a → env.file = some c →
      env.allocOk = true → read_lines c = [] →
      runMain env r = ⟨1, false, false, [], [Msg.emptyList]⟩) ∧
    (∀ fn a c, env.argv = [fn, a] → 0 < atoi a → env.file = some c →
      env.allocOk = true → read_lines c ≠ [] →
      ((read_lines c).length : Int) < atoi a →
      runMain env r = ⟨1, false, false, [], [Msg.insufficient, Msg.insufficientAdvice]⟩) ∧
    (∀ fn a c, env.argv = [fn, a] → 0 < atoi a → env.file = some c →
      env.allocOk = true → read_lines c ≠ [] →
      ¬ ((read_lines c).length : Int) < atoi a →
      runMain env r = ⟨0, false, true, (shuffle r (read_lines c)).take (atoi a).toNat, []⟩) := by
  refine ⟨?_, ?_, ?_, ?_, ?_, ?_, ?_, ?_, ?_⟩
  · rcases runMain_shape env r with h|h|h|h|h|h|⟨n,c,_,_,_,h⟩ <;> rw [h] <;> simp
  · rcases runMain_shape env r with h|h|h|h|h|h|⟨n,c,hn,hne,hge,h⟩ <;> rw [h]
    · simp
    · simp
    · simp
    · simp
    · simp
    · simp
    · constructor
      · intro _
        refine ⟨rfl, ?_⟩
        intro hnil
        have h1 := congrArg List.length hnil
        rw [List.length_take, shuffle_length] at h1
        have hlen0 : (read_lines c).length ≠ 0 :=
          fun hz => hne (List.eq_nil_of_length_eq_zero hz)
        simp only [List.length_nil] at h1
        omega
      · intro _
        rfl
  · exact fun h => runMain_usage env r h
  · intro fn a hargv hle
    rw [runMain_checked env r fn a hargv]
    exact mainChecked_invalid a env.file env.allocOk r hle
  · intro fn a hargv hpos hfile
    rw [runMain_checked env r fn a hargv, hfile]
    exact mainChecked_none a env.allocOk r hpos
  · intro fn a c hargv hpos hfile halloc
    rw [runMain_checked env r fn a hargv, hfile,
      mainChecked_some a c env.allocOk r hpos, halloc]
    exact mainLoaded_alloc (atoi a) c r
  · intro fn a c hargv hpos hfile halloc hempty
    rw [runMain_checked env r fn a hargv, hfile,
      mainChecked_some a c env.allocOk r hpos, halloc]
    exact mainLoaded_empty (atoi a) c r hempty
  · intro fn a c hargv hpos hfile halloc hne hlt
    rw [runMain_checked env r fn a hargv, hfile,
      mainChecked_some a c env.allocOk r hpos, halloc]
    exact mainLoaded_insufficient (atoi a) c r hne hlt
  · intro fn a c hargv hpos hfile halloc hne hge
    rw [runMain_checked env r fn a hargv, hfile,
      mainChecked_some a c env.allocOk r hpos, halloc]
    exact mainLoaded_success (atoi a) c r hne hge

theorem main_exit_code_spec_witness :
    runMain ⟨[], none, true⟩ (constDraw 0) = ⟨1, true, false, [], []⟩ :=
  (main_exit_code_spec ⟨[], none, true⟩ (constDraw 0)).2.2.1 (by decide)

/-- The environment of a run `./random-winners f 5` on the three-line file
`"a\nb\nc\n"`: five winners requested from three participants. -/
def envInsufficient : Env := ⟨[[102], [53]], some [97, 10, 98, 10, 99, 10], true⟩

/-- C7 (counterexample): the insufficient-participants error writes *two*
lines to standard error (lines 139-141), not a single message. -/
theorem insufficient_two_stderr_lines :
    (runMain envInsufficient (constDraw 0)).exitCode = 1 ∧
    (runMain envInsufficient (constDraw 0)).stderr.length = 2 := by decide

/-- C7 (amended): every error run is terminal with no partial winner output:
no winner line and no header reaches stdout, the exit status is 1, the usage
error prints only usage text (stdout) and nothing to stderr, and every other
error prints exactly one stderr message — except `InsufficientParticipants`,
whose single diagnostic spans two stderr lines. -/
theorem error_runs_terminal (env : Env) (r : Nat → Nat)
    (h : (runMain env r).exitCode ≠ 0) :
    (runMain env r).exitCode = 1 ∧ (runMain env r).winners = [] ∧
    (runMain env r).headerPrinted = false ∧
    ((runMain env r).usagePrinted = true → (runMain env r).stderr = []) ∧
    ((runMain env r).usagePrinted = false →
      (runMain env r).stderr.length = 1 ∨
      (runMain env r).stderr = [Msg.insufficient, Msg.insufficientAdvice]) := by
  rcases runMain_shape env r with hs|hs|hs|hs|hs|hs|⟨n,c,hn,hne,hge,hs⟩
  · rw [hs]; simp
  · rw [hs]; simp
  · rw [hs]; simp
  · rw [hs]; simp
  · rw [hs]; simp
  · rw [hs]; simp
  · rw [hs] at h; simp at h

/-- The environment of a run `./random-winners f 3` where the file is
missing. -/
def envFileMissing : Env := ⟨[[102], [51]], none, true⟩

theorem error_runs_terminal_witness :
    (runMain envFileMissing (constDraw 0)).exitCode = 1 ∧
    (runMain envFileMissing (constDraw 0)).winners = [] ∧
    (runMain envFileMissing (constDraw 0)).headerPrinted = false ∧
    ((runMain envFileMissing (constDraw 0)).usagePrinted = true →
      (runMain envFileMissing (constDraw 0)).stderr = []) ∧
    ((runMain envFileMissing (constDraw 0)).usagePrinted = false →
      (runMain envFileMissing (constDraw 0)).stderr.length = 1 ∨
      (runMain envFileMissing (constDraw 0)).stderr =
        [Msg.insufficient, Msg.insufficientAdvice]) :=
  error_runs_terminal envFileMissing (constDraw 0) (by decide)

/-- The run `./random-winners f abc` on a three-line file: the winner count
has no numeric prefix. -/
def envBadCount : Env := ⟨[[102], [97, 98, 99]], some [97, 10, 98, 10, 99, 10], true⟩

/-- The run `./random-winners f 3abc` on a three-line file: numeric prefix
followed by trailing garbage. -/
def envTrailingJunk : Env :=
  ⟨[[102], [51, 97, 98, 99]], some [97, 10, 98, 10, 99, 10], true⟩

/-- C10: `atoi` parses `"abc"` to 0 — rejected as a non-positive winner
count — while `"3abc"` parses to its numeric prefix 3 and the run succeeds. -/
theorem atoi_parsing_behavior :
    atoi [97, 98, 99] = 0 ∧
    atoi [51, 97, 98, 99] = 3 ∧
    (runMain envBadCount (constDraw 0)).exitCode = 1 ∧
    (runMain envBadCount (constDraw 0)).stderr = [Msg.invalidCount] ∧
    (runMain envTrailingJunk (constDraw 0)).exitCode = 0 ∧
    (runMain envTrailingJunk (constDraw 0)).winners.length = 3 := by decide
